import Mathlib

/-
Verification development for the OpenCL kd-tree backend of libnabo
(src/nabo/kdtree_opencl.cpp).

The file shallowly embeds the host-side logic of that translation unit:

* the program-cache behaviour of OpenCLSearch::initOpenCL;
* the generated macro header assembled in initOpenCL;
* the argument-slot protocol of OpenCLSearch::knn and of the two kd-tree
  constructors;
* argMax;
* getTreeSize, getTreeDepth and buildNodes of both kd-tree variants
  (KDTreeBalancedPtInLeavesStackOpenCL and KDTreeBalancedPtInNodesStackOpenCL).

Modelling conventions:

* size_t / int values are embedded as Nat / Int; the bit scans of
  getTreeSize / getTreeDepth are embedded exactly as the source writes them,
  as a downward scan of bit positions 31..0 (the source reads
  "FIXME: 64 bits safe stuff, only work for 2^32 elements right now").
* std::nth_element only rearranges the range it is given; which
  rearrangement happens depends on the point coordinates.  It is embedded
  as an oracle function, and theorems quantify over all oracles that
  permute the range, which covers every point configuration.  Likewise the
  cut dimension chosen by argMax over the current bounding box is an
  oracle.  The scalar cut value stored in a split node plays no role in
  any claim below and is dropped from the embedded node records.
* buildNodes writes nodes through nodes[pos] = ...; the embedding returns
  the list of (position, node) stores the call performs.
-/

namespace KdTreeOpenCL

/-- Maximum number of points acceptable in a query; macro MAX_K of the source. -/
def MAX_K : Nat := 32

/-! ## OpenCLSearch::initOpenCL - program cache behaviour -/

/-- State of a SourceCacher: the set of source texts that own a cached
cl::Program entry (the map keys of cachedPrograms). -/
structure SourceCacherState where
  cachedPrograms : List String
deriving DecidableEq

/-- Embedding of the cache discipline of OpenCLSearch::initOpenCL.
The compile oracle says whether cl::Program::build succeeds on a given
source text.  Following the source: on a cache miss the program is stored
into cachedPrograms first (line 258), then built; on a build failure the
error is rethrown (returned Bool is false) and the entry is not removed.
On a cache hit no compilation happens and the call proceeds (true). -/
def initOpenCL (compileOk : String → Bool) (st : SourceCacherState)
    (source : String) : SourceCacherState × Bool :=
  if source ∈ st.cachedPrograms then (st, true)
  else
    let st2 : SourceCacherState := ⟨source :: st.cachedPrograms⟩
    if compileOk source then (st2, true) else (st2, false)

/-! ## Generated macro header -/

/-- Embedding of the macro header built in the ostringstream of initOpenCL.
The scalar type snippet (EnableCLTypeSupport code) and the printed epsilon
are abstract strings, dim and stride abstract numbers; the MAX_K line uses
the shared macro constant. -/
def buildDefines (typeCode epsStr : String) (dim stride : Nat)
    (collectStatistics : Bool) (additionalDefines : String) : String :=
  typeCode
    ++ "#define EPSILON " ++ epsStr ++ "\n"
    ++ "#define DIM_COUNT " ++ toString dim ++ "\n"
    ++ "#define POINT_STRIDE " ++ toString stride ++ "\n"
    ++ "#define MAX_K " ++ toString MAX_K ++ "\n"
    ++ (if collectStatistics then "#define TOUCH_STATISTICS\n" else "")
    ++ additionalDefines

/-- Scalar type snippet generated by EnableCLTypeSupport for float. -/
def enableCLTypeSupportFloat : String := "typedef float T;\n"

/-! ## OpenCLSearch::knn - validation order and argument slots -/

/-- Inputs of a knn call that its validation steps look at. -/
structure KnnIn where
  k : Nat
  queryCols : Nat
  queryRows : Nat
  queryStride : Nat
  cloudRows : Nat
  cloudStride : Nat
  indicesRows : Nat
  indicesCols : Nat
  dists2Rows : Nat
  dists2Cols : Nat
  queryDirectAccess : Bool
  queryRowMajor : Bool
  collectStatistics : Bool

/-- Effects knn performs after its checks: binding a device buffer to a
kernel argument slot, binding the scalar arguments (slots 4 to 9), and the
kernel dispatch with the blocking buffer maps. -/
inductive KnnStep where
  | bindBuffer (slot : Nat)
  | scalarArgs
  | dispatch
deriving DecidableEq

/-- Errors knn can raise before performing any effect. -/
inductive KnnErr where
  | sizeErr
  | capacityErr
  | dimErr
  | layoutErr
deriving DecidableEq

/-- Modelled from the spec: checkSizesKnn lives in the NearestNeighbourSearch
base class, which is not part of this translation unit; the spec says it
validates the output buffer shapes against (k, query count) and fails with a
size error on mismatch. -/
def checkSizesKnn (a : KnnIn) : Bool :=
  a.indicesRows = a.k ∧ a.indicesCols = a.queryCols
    ∧ a.dists2Rows = a.k ∧ a.dists2Cols = a.queryCols

/-- Embedding of the control flow of OpenCLSearch::knn: the trace of effects
performed, and the error aborting the call if one is raised.  The order of
the checks and of the effects follows the source text: checkSizesKnn, the
k > MAX_K check, the query/cloud consistency check, the query layout check,
then buffer bindings at slots 1, 2, 3, the scalar arguments, the optional
visit-count buffer at slot 10, and the dispatch. -/
def knn (a : KnnIn) : List KnnStep × Option KnnErr :=
  if ¬ checkSizesKnn a then ([], some .sizeErr)
  else if a.k > MAX_K then ([], some .capacityErr)
  else if a.queryStride ≠ a.cloudStride ∨ a.queryRows ≠ a.cloudRows then
    ([], some .dimErr)
  else if ¬ a.queryDirectAccess ∨ a.queryRowMajor then ([], some .layoutErr)
  else
    ([.bindBuffer 1, .bindBuffer 2, .bindBuffer 3, .scalarArgs]
      ++ (if a.collectStatistics then [.bindBuffer 10] else [])
      ++ [.dispatch], none)

/-- Slot at which knn binds the per-query visit-count buffer when statistics
collection is enabled (knnKernel.setArg(10, ...) in the source). -/
def visitCountArgSlot : Nat := 10

/-- Slot at which the KDTreeBalancedPtInLeavesStackOpenCL constructor binds
the node buffer: the source performs knnKernel.setArg(10, ...) with no
statistics branch. -/
def ptInLeavesTreeArgSlot (collectStatistics : Bool) : Nat := 10

/-- Slot at which the KDTreeBalancedPtInNodesStackOpenCL constructor binds
the node buffer: setArg(11, ...) when statistics are collected, else
setArg(10, ...). -/
def ptInNodesTreeArgSlot (collectStatistics : Bool) : Nat :=
  if collectStatistics then 11 else 10

/-! ## argMax -/

/-- Loop body state of argMax: the running maximum value (initialised to 0)
and its index (initialised to 0); i counts the elements already consumed. -/
def argMaxGo {T : Type} [LinearOrder T] (v : List T) (i : Nat)
    (maxVal : T) (maxIdx : Nat) : T × Nat :=
  match v with
  | [] => (maxVal, maxIdx)
  | x :: xs =>
    if maxVal < x then argMaxGo xs (i + 1) x i
    else argMaxGo xs (i + 1) maxVal maxIdx

/-- Embedding of argMax: index of the first component strictly greater than
all later ones and than the initial running maximum 0. -/
def argMax {T : Type} [LinearOrder T] [Zero T] (v : List T) : Nat :=
  (argMaxGo v 0 (0 : T) 0).2

/-! ## Implicit tree addressing

Modelled from the spec: childLeft and childRight are declared in
nabo_private.h, which is not part of this translation unit; the spec
describes the node array as a flat, implicitly-addressed binary tree with
the child of position p at fixed arithmetic offsets of p, which is the
standard heap layout below. -/

def childLeft (pos : Nat) : Nat := 2 * pos + 1

def childRight (pos : Nat) : Nat := 2 * pos + 2

/-! ## Bit scans shared by getTreeSize / getTreeDepth -/

/-- Downward scan for (; i >= 0; --i) if (elCount & (1 << i)) break;
over i = 31..0: the first (largest) bit position at which elCount has a
set bit, none when the low 32 bits of elCount are all clear. -/
def hbScan (elCount : Nat) : Option Nat :=
  (List.range 32).reverse.find? (fun i => elCount.testBit i)

/-- Accumulation for (j = 0; j <= i; ++j) count |= (1 << j);. -/
def lowMask (i : Nat) : Nat :=
  (List.range (i + 1)).foldl (fun c j => c ||| (1 <<< j)) 0

namespace KDTreeBalancedPtInLeavesStackOpenCL

/-- Embedding of KDTreeBalancedPtInLeavesStackOpenCL::getTreeSize.  The
source asserts elCount > 0 and decrements; when the scan of elCount - 1
finds no set bit (signed i leaves the loop at -1) the inner mask loop does
not run and the result is (0 << 1) | 1 = 1. -/
def getTreeSize (elCount : Nat) : Nat :=
  ((match hbScan (elCount - 1) with
    | some i => lowMask i
    | none => 0) <<< 1) ||| 1

/-- Embedding of KDTreeBalancedPtInLeavesStackOpenCL::getTreeDepth.  The
loop variable i is size_t, so i >= 0 never fails; when elCount - 1 has no
set bit among positions 31..0 the loop underflows and never produces a
result, embedded as none. -/
def getTreeDepth (elCount : Nat) : Option Nat :=
  if elCount ≤ 1 then some 0
  else
    match hbScan (elCount - 1) with
    | some i => some (i + 1)
    | none => none

end KDTreeBalancedPtInLeavesStackOpenCL

namespace KDTreeBalancedPtInNodesStackOpenCL

/-- Embedding of KDTreeBalancedPtInNodesStackOpenCL::getTreeSize; here i is
a signed int, and with no set bit found (i = -1) the mask loop does not run
and count stays 0. -/
def getTreeSize (elCount : Nat) : Nat :=
  match hbScan elCount with
  | some i => lowMask i
  | none => 0

/-- Embedding of KDTreeBalancedPtInNodesStackOpenCL::getTreeDepth; i is a
signed int, so the scan terminates with i = -1 when no bit is found and the
function returns i + 1 = 0. -/
def getTreeDepth (elCount : Nat) : Nat :=
  match hbScan elCount with
  | some i => i + 1
  | none => 0

end KDTreeBalancedPtInNodesStackOpenCL

/-! ## nth_element oracle -/

/-- Embedding of the std::nth_element call of buildNodes.  The rearrangement
it performs depends on the point coordinates, so it is an oracle σ; the
length guard makes the embedding total for every oracle, and for oracles
that permute the range (the only ones nth_element realises) the guard is
the identity. -/
def nthElement (σ : List Nat → Nat → List Nat) (l : List Nat) (k : Nat) :
    List Nat :=
  let l2 := σ l k
  if l2.length = l.length then l2 else l

/-- Oracle describing an nth_element call that leaves the range as is. -/
def idSel : List Nat → Nat → List Nat := fun l _ => l

/-- Cut-dimension oracle that always cuts on axis 0. -/
def zeroCut : List Nat → Nat := fun _ => 0

namespace KDTreeBalancedPtInLeavesStackOpenCL

/-- Embedding of KDTreeBalancedPtInLeavesStackOpenCL::buildNodes.  The
point range is the list of original point indices of its BuildPoints (the
coordinates act only through the oracles σ for nth_element and δ for the
argMax cut dimension).  The result is the list of (position, stored dim
field) array stores: a one-point range stores the leaf sentinel
-2 - index, otherwise a split node stores the non-negative cut dimension
and the call recurses on the two halves, leftCount = count - count / 2
first. -/
def buildNodes (σ : List Nat → Nat → List Nat) (δ : List Nat → Nat)
    (l : List Nat) (pos : Nat) : List (Nat × Int) :=
  match l with
  | [] => []
  | [i] => [(pos, -2 - (i : Int))]
  | a :: b :: t =>
    let count := (a :: b :: t).length
    let rightCount := count / 2
    let leftCount := count - rightCount
    let l2 := nthElement σ (a :: b :: t) leftCount
    (pos, (δ (a :: b :: t) : Int)) ::
      (buildNodes σ δ (l2.take leftCount) (childLeft pos)
        ++ buildNodes σ δ (l2.drop leftCount) (childRight pos))
termination_by l.length
decreasing_by
  · simp only [nthElement, List.length_take, List.length_cons]
    split <;> simp_all <;> omega
  · simp only [nthElement, List.length_drop, List.length_cons]
    split <;> simp_all <;> omega

end KDTreeBalancedPtInLeavesStackOpenCL

namespace KDTreeBalancedPtInNodesStackOpenCL

/-- Embedding of KDTreeBalancedPtInNodesStackOpenCL::buildNodes over the
list of point indices (its BuildPoints are bare indices).  Stored nodes are
(dim field, index field) pairs: a one-point range stores (-1, index); a
larger range keeps the point at position leftCount of the rearranged range
in the split node (cut dimension, that index), with
leftCount = (count - 1) - (count - 1) / 2, and for count > 2 recurses on
the two remaining halves, while for count == 2 it writes the two children
directly as (-1, first index) and (-2, 0). -/
def buildNodes (σ : List Nat → Nat → List Nat) (δ : List Nat → Nat)
    (l : List Nat) (pos : Nat) : List (Nat × (Int × Nat)) :=
  match l with
  | [] => []
  | [i] => [(pos, (-1, i))]
  | a :: b :: t =>
    let count := (a :: b :: t).length
    let recurseCount := count - 1
    let rightCount := recurseCount / 2
    let leftCount := recurseCount - rightCount
    let l2 := nthElement σ (a :: b :: t) leftCount
    (pos, ((δ (a :: b :: t) : Int), l2.getD leftCount 0)) ::
      (if 2 < count then
        buildNodes σ δ (l2.take leftCount) (childLeft pos)
          ++ buildNodes σ δ (l2.drop (leftCount + 1)) (childRight pos)
      else
        [(childLeft pos, (-1, l2.headD 0)), (childRight pos, (-2, 0))])
termination_by l.length
decreasing_by
  · simp only [nthElement, List.length_take, List.length_cons]
    split <;> simp_all <;> omega
  · simp only [nthElement, List.length_drop, List.length_cons]
    split <;> simp_all <;> omega

end KDTreeBalancedPtInNodesStackOpenCL

/-! ## Derived notions used by the claims -/

/-- Depth of an implicitly addressed node position: position 0 is the root
at depth 0, and the children 2p+1 and 2p+2 of p lie one level deeper. -/
def nodeDepth (q : Nat) : Nat := Nat.log 2 (q + 1)

/-- Maximum root-to-leaf depth of the tree laid down by a list of node
stores: the largest depth of a written position. -/
def maxStoreDepth {β : Type} (w : List (Nat × β)) : Nat :=
  (w.map (fun e => nodeDepth e.1)).foldr max 0

/-- Positions written by a list of node stores. -/
def storePositions {β : Type} (w : List (Nat × β)) : List Nat :=
  w.map (fun e => e.1)

/-- Original point indices decoded from the leaf sentinels (dim <= -2) of a
points-in-leaves store list; a sentinel -2 - i decodes to i. -/
def leafIndices (w : List (Nat × Int)) : List Nat :=
  w.filterMap (fun e => if e.2 ≤ -2 then some (-2 - e.2).toNat else none)

/-- Point indices owned by the nodes of a points-in-nodes store list: split
nodes (dim >= 0) and single-point leaves (dim = -1) own their index field,
the absent sentinel (dim = -2) owns nothing. -/
def ownedIndices (w : List (Nat × (Int × Nat))) : List Nat :=
  w.filterMap (fun e => if e.2.1 = -2 then none else some e.2.2)

/-- Position q lies in the subtree rooted at position p of the implicit
layout (possibly q = p): iterating the parent map from q reaches p. -/
def inSubtree (p q : Nat) : Prop := ∃ k, (q + 1) >>> k = p + 1

/-- Depth bound of the points-in-leaves recursion on a range of c points;
it will be proved to be the exact maximum store depth of buildNodes. -/
def depthBoundL (c : Nat) : Nat := if c ≤ 1 then 0 else Nat.log 2 (c - 1) + 1

/-! ## Helper lemmas -/

theorem nthElement_length (σ : List Nat → Nat → List Nat) (l : List Nat)
    (k : Nat) : (nthElement σ l k).length = l.length := by
  simp only [nthElement]
  split <;> simp_all

theorem nthElement_perm (σ : List Nat → Nat → List Nat)
    (hσ : ∀ l k, (σ l k).Perm l) (l : List Nat) (k : Nat) :
    (nthElement σ l k).Perm l := by
  simp only [nthElement]
  split <;> simp_all

theorem foldr_max_le {L : List Nat} {B : Nat} (h : ∀ x ∈ L, x ≤ B) :
    L.foldr max 0 ≤ B := by
  induction L with
  | nil => simp
  | cons x xs ih =>
    simp only [List.foldr_cons, max_le_iff]
    exact ⟨h x (by simp), ih (fun y hy => h y (by simp [hy]))⟩

theorem le_foldr_max {L : List Nat} {x : Nat} (h : x ∈ L) :
    x ≤ L.foldr max 0 := by
  induction L with
  | nil => simp at h
  | cons y ys ih =>
    rcases List.mem_cons.mp h with rfl | h2
    · simp
    · simp only [List.foldr_cons]
      exact le_trans (ih h2) (le_max_right _ _)

theorem shiftRight_eq_one_lt {x k : Nat} (h : x >>> k = 1) : x < 2 ^ (k + 1) := by
  rw [Nat.shiftRight_eq_div_pow] at h
  have h2 : x / 2 ^ k < 2 := by omega
  have := (Nat.div_lt_iff_lt_mul (Nat.pos_pow_of_pos k (by norm_num))).mp h2
  calc x < 2 * 2 ^ k := by omega
  _ = 2 ^ (k + 1) := by ring

theorem shiftRight_eq_one_le {x k : Nat} (h : x >>> k = 1) : 2 ^ k ≤ x := by
  rw [Nat.shiftRight_eq_div_pow] at h
  have h2 : 1 ≤ x / 2 ^ k := by omega
  exact (Nat.one_le_div_iff (Nat.pos_pow_of_pos k (by norm_num))).mp h2

/-- Characterisation of depth through the shift relation: a position whose
k-fold parent is the root has depth k. -/
theorem log_of_shiftRight_eq_one {x k : Nat} (h : x >>> k = 1) :
    Nat.log 2 x = k :=
  Nat.log_eq_of_pow_le_of_lt_pow (shiftRight_eq_one_le h) (shiftRight_eq_one_lt h)

theorem shiftRight_le_self (x k : Nat) : x >>> k ≤ x := by
  rw [Nat.shiftRight_eq_div_pow]
  exact Nat.div_le_self _ _

theorem inSubtree_le {p q : Nat} (h : inSubtree p q) : p ≤ q := by
  obtain ⟨k, hk⟩ := h
  have := shiftRight_le_self (q + 1) k
  omega

theorem inSubtree_trans {p q r : Nat} (h1 : inSubtree p q)
    (h2 : inSubtree q r) : inSubtree p r := by
  obtain ⟨k1, hk1⟩ := h1
  obtain ⟨k2, hk2⟩ := h2
  exact ⟨k2 + k1, by rw [Nat.shiftRight_add, hk2, hk1]⟩

theorem shiftRight_le_shiftRight_one {x a : Nat} (ha : 1 ≤ a) :
    x >>> a ≤ x >>> 1 := by
  rw [Nat.shiftRight_eq_div_pow, Nat.shiftRight_eq_div_pow]
  exact Nat.div_le_div_left (Nat.pow_le_pow_right (by norm_num) ha) (by norm_num)

/-- The two sibling subtrees of the implicit layout are disjoint. -/
theorem siblings_disjoint {p r : Nat} (h1 : inSubtree (childLeft p) r)
    (h2 : inSubtree (childRight p) r) : False := by
  obtain ⟨a, ha⟩ := h1
  obtain ⟨b, hb⟩ := h2
  simp only [childLeft, childRight] at ha hb
  rcases Nat.lt_trichotomy a b with hab | rfl | hab
  · have hsplit : b = a + (b - a) := by omega
    rw [hsplit, Nat.shiftRight_add, ha] at hb
    have h1ba : 1 ≤ b - a := by omega
    have := shiftRight_le_shiftRight_one (x := 2 * p + 1 + 1) h1ba
    have hone : (2 * p + 1 + 1) >>> 1 = p + 1 := by
      rw [Nat.shiftRight_succ, Nat.shiftRight_zero]; omega
    omega
  · omega
  · have hsplit : a = b + (a - b) := by omega
    rw [hsplit, Nat.shiftRight_add, hb] at ha
    have h1ab : 1 ≤ a - b := by omega
    have := shiftRight_le_shiftRight_one (x := 2 * p + 2 + 1) h1ab
    have hone : (2 * p + 2 + 1) >>> 1 = p + 1 := by
      rw [Nat.shiftRight_succ, Nat.shiftRight_zero]; omega
    omega

theorem shiftRight_childLeft {q k p : Nat}
    (h : (q + 1) >>> k = childLeft p + 1) : (q + 1) >>> (k + 1) = p + 1 := by
  rw [Nat.shiftRight_succ, h]
  simp only [childLeft]
  omega

theorem shiftRight_childRight {q k p : Nat}
    (h : (q + 1) >>> k = childRight p + 1) : (q + 1) >>> (k + 1) = p + 1 := by
  rw [Nat.shiftRight_succ, h]
  simp only [childRight]
  omega

/-! ## Characterisation of the bit scan -/

theorem find_reverse_range {tb : Nat → Bool} {h : Nat} :
    ∀ m, h < m → tb h = true → (∀ i, h < i → tb i = false) →
      (List.range m).reverse.find? tb = some h := by
  intro m
  induction m with
  | zero => omega
  | succ m ih =>
    intro hm htb habove
    rw [List.range_succ, List.reverse_append]
    simp only [List.reverse_cons, List.reverse_nil, List.nil_append,
      List.cons_append, List.find?_cons]
    rcases Nat.lt_or_ge h m with hlt | hge
    · have : tb m = false := habove m hlt
      rw [this]
      exact ih hlt htb habove
    · have : h = m := by omega
      subst this
      rw [htb]

theorem testBit_log_self {e : Nat} (he : 1 ≤ e) :
    e.testBit (Nat.log 2 e) = true := by
  rw [Nat.testBit_to_div_mod]
  have h1 : 2 ^ Nat.log 2 e ≤ e := Nat.pow_log_le_self 2 (by omega)
  have h2 : e < 2 ^ (Nat.log 2 e + 1) := Nat.lt_pow_succ_log_self (by norm_num) e
  have hp : 0 < 2 ^ Nat.log 2 e := Nat.pos_pow_of_pos _ (by norm_num)
  have hd1 : 1 ≤ e / 2 ^ Nat.log 2 e := (Nat.one_le_div_iff hp).mpr h1
  have hd2 : e / 2 ^ Nat.log 2 e < 2 := by
    rw [Nat.div_lt_iff_lt_mul hp]
    rw [pow_succ] at h2
    omega
  have : e / 2 ^ Nat.log 2 e = 1 := by omega
  simp [this]

theorem testBit_false_of_log_lt {e i : Nat} (hi : Nat.log 2 e < i) :
    e.testBit i = false := by
  rw [Nat.testBit_to_div_mod]
  rcases Nat.eq_zero_or_pos e with rfl | he
  · simp
  · have h2 : e < 2 ^ (Nat.log 2 e + 1) := Nat.lt_pow_succ_log_self (by norm_num) e
    have h3 : (2 : Nat) ^ (Nat.log 2 e + 1) ≤ 2 ^ i :=
      Nat.pow_le_pow_right (by norm_num) (by omega)
    have : e / 2 ^ i = 0 := Nat.div_eq_of_lt (by omega)
    simp [this]

/-- The downward scan of initialised bit positions 31..0 finds exactly the
highest set bit for inputs below 2^32. -/
theorem hbScan_eq_log {e : Nat} (h1 : 1 ≤ e) (h2 : e < 2 ^ 32) :
    hbScan e = some (Nat.log 2 e) := by
  have hlog : Nat.log 2 e < 32 := Nat.log_lt_of_lt_pow (by omega) h2
  exact find_reverse_range 32 hlog (testBit_log_self h1)
    (fun i hi => testBit_false_of_log_lt hi)

theorem lowMask_eq : ∀ i, i < 32 → lowMask i = 2 ^ (i + 1) - 1 := by decide

theorem lowMask_shift_or : ∀ i, i < 32 →
    ((lowMask i) <<< 1) ||| 1 = 2 ^ (i + 2) - 1 := by decide

theorem spec_formula_leaves : ∀ i, i < 32 →
    (((1 <<< (i + 1)) - 1) <<< 1) ||| 1 = 2 ^ (i + 2) - 1 := by decide

/-! ## Arithmetic of the depth bounds -/

theorem log_two_two : Nat.log 2 2 = 1 := by
  have := Nat.log_pow (b := 2) (by norm_num) 1
  simpa using this

theorem depthBoundL_left {c : Nat} (hc : 2 ≤ c) :
    depthBoundL (c - c / 2) = depthBoundL c - 1 := by
  rcases Nat.lt_or_ge c 4 with h4 | h4
  · have : c = 2 ∨ c = 3 := by omega
    rcases this with rfl | rfl
    · norm_num [depthBoundL, Nat.log_one_right]
    · norm_num [depthBoundL, Nat.log_one_right, log_two_two]
  · have hlc : c - c / 2 - 1 = (c - 1) / 2 := by omega
    have hlc2 : 2 ≤ c - c / 2 := by omega
    have hld : Nat.log 2 ((c - 1) / 2) = Nat.log 2 (c - 1) - 1 :=
      Nat.log_div_base 2 (c - 1)
    have hpos : 0 < Nat.log 2 (c - 1) := Nat.log_pos (by norm_num) (by omega)
    simp only [depthBoundL, if_neg (by omega : ¬ c - c / 2 ≤ 1),
      if_neg (by omega : ¬ c ≤ 1)]
    rw [hlc, hld]
    omega

theorem depthBoundL_right {c : Nat} (hc : 2 ≤ c) :
    depthBoundL (c / 2) ≤ depthBoundL c - 1 := by
  rcases Nat.lt_or_ge c 4 with h4 | h4
  · have : c = 2 ∨ c = 3 := by omega
    rcases this with rfl | rfl
    · norm_num [depthBoundL, Nat.log_one_right]
    · norm_num [depthBoundL, Nat.log_one_right, log_two_two]
  · have hrc : c / 2 - 1 ≤ (c - 1) / 2 := by omega
    have hld : Nat.log 2 ((c - 1) / 2) = Nat.log 2 (c - 1) - 1 :=
      Nat.log_div_base 2 (c - 1)
    have hmono : Nat.log 2 (c / 2 - 1) ≤ Nat.log 2 ((c - 1) / 2) :=
      Nat.log_mono_right hrc
    have hpos : 0 < Nat.log 2 (c - 1) := Nat.log_pos (by norm_num) (by omega)
    simp only [depthBoundL, if_neg (by omega : ¬ c / 2 ≤ 1),
      if_neg (by omega : ¬ c ≤ 1)]
    omega

theorem depthBoundL_pos {c : Nat} (hc : 2 ≤ c) : 1 ≤ depthBoundL c := by
  simp only [depthBoundL, if_neg (by omega : ¬ c ≤ 1)]
  omega

theorem logN_left (c : Nat) :
    Nat.log 2 (c / 2) = Nat.log 2 c - 1 := Nat.log_div_base 2 c

theorem logN_right {c : Nat} (hc : 2 ≤ c) :
    Nat.log 2 ((c - 1) / 2) ≤ Nat.log 2 c - 1 := by
  have h1 : Nat.log 2 ((c - 1) / 2) ≤ Nat.log 2 (c / 2) :=
    Nat.log_mono_right (by omega)
  have h2 : Nat.log 2 (c / 2) = Nat.log 2 c - 1 := Nat.log_div_base 2 c
  omega

theorem logN_pos {c : Nat} (hc : 2 ≤ c) : 1 ≤ Nat.log 2 c :=
  Nat.log_pos (by norm_num) hc

/-! ## Store lemmas for the points-in-leaves builder -/

namespace KDTreeBalancedPtInLeavesStackOpenCL

theorem store_subtree_leaves (σ : List Nat → Nat → List Nat) (δ : List Nat → Nat) :
    ∀ (fuel : Nat) (l : List Nat) (pos : Nat), l.length ≤ fuel →
      ∀ e ∈ buildNodes σ δ l pos,
        ∃ k, k ≤ depthBoundL l.length ∧ (e.1 + 1) >>> k = pos + 1 := by
  intro fuel
  induction fuel with
  | zero =>
    intro l pos hl e he
    match l with
    | [] => simp [buildNodes] at he
  | succ fuel ih =>
    intro l pos hl e he
    match l with
    | [] => simp [buildNodes] at he
    | [i] =>
      simp only [buildNodes, List.mem_singleton] at he
      subst he
      exact ⟨0, Nat.zero_le _, by simp⟩
    | a :: b :: t =>
      rw [buildNodes.eq_3] at he
      have hc2 : 2 ≤ (a :: b :: t).length := by simp
      rcases List.mem_cons.mp he with rfl | hmem
      · exact ⟨0, Nat.zero_le _, by simp⟩
      rcases List.mem_append.mp hmem with hside | hside
      · have hlen : ((nthElement σ (a :: b :: t)
            ((a :: b :: t).length - (a :: b :: t).length / 2)).take
            ((a :: b :: t).length - (a :: b :: t).length / 2)).length
            = (a :: b :: t).length - (a :: b :: t).length / 2 := by
          rw [List.length_take, nthElement_length]
          simp
        obtain ⟨k, hk, hs⟩ := ih _ (childLeft pos)
          (by rw [hlen]; simp only [List.length_cons] at hl ⊢; omega) e hside
        rw [hlen] at hk
        refine ⟨k + 1, ?_, shiftRight_childLeft hs⟩
        have h1 := depthBoundL_left hc2
        have h2 := depthBoundL_pos hc2
        omega
      · have hlen : ((nthElement σ (a :: b :: t)
            ((a :: b :: t).length - (a :: b :: t).length / 2)).drop
            ((a :: b :: t).length - (a :: b :: t).length / 2)).length
            = (a :: b :: t).length / 2 := by
          rw [List.length_drop, nthElement_length]
          simp only [List.length_cons]
          omega
        obtain ⟨k, hk, hs⟩ := ih _ (childRight pos)
          (by rw [hlen]; simp only [List.length_cons] at hl ⊢; omega) e hside
        rw [hlen] at hk
        refine ⟨k + 1, ?_, shiftRight_childRight hs⟩
        have h1 := depthBoundL_right hc2
        have h2 := depthBoundL_pos hc2
        omega

theorem attains_leaves (σ : List Nat → Nat → List Nat) (δ : List Nat → Nat) :
    ∀ (fuel : Nat) (l : List Nat) (pos : Nat), l.length ≤ fuel → l ≠ [] →
      ∃ e ∈ buildNodes σ δ l pos,
        (e.1 + 1) >>> depthBoundL l.length = pos + 1 := by
  intro fuel
  induction fuel with
  | zero =>
    intro l pos hl hne
    match l with
    | [] => exact absurd rfl hne
  | succ fuel ih =>
    intro l pos hl hne
    match l with
    | [] => exact absurd rfl hne
    | [i] =>
      refine ⟨(pos, -2 - (i : Int)), by simp [buildNodes], ?_⟩
      simp [depthBoundL]
    | a :: b :: t =>
      have hc2 : 2 ≤ (a :: b :: t).length := by simp
      have hlen : ((nthElement σ (a :: b :: t)
          ((a :: b :: t).length - (a :: b :: t).length / 2)).take
          ((a :: b :: t).length - (a :: b :: t).length / 2)).length
          = (a :: b :: t).length - (a :: b :: t).length / 2 := by
        rw [List.length_take, nthElement_length]
        simp
      obtain ⟨e, hmem, hs⟩ := ih _ (childLeft pos)
        (by rw [hlen]; simp only [List.length_cons] at hl ⊢; omega)
        (by rw [← List.length_pos, hlen]; simp only [List.length_cons]; omega)
      rw [hlen] at hs
      refine ⟨e, ?_, ?_⟩
      · rw [buildNodes.eq_3]
        exact List.mem_cons_of_mem _ (List.mem_append_left _ hmem)
      · have h1 := depthBoundL_left hc2
        have h2 := depthBoundL_pos hc2
        rw [show depthBoundL (a :: b :: t).length
          = depthBoundL ((a :: b :: t).length - (a :: b :: t).length / 2) + 1
          from by omega]
        exact shiftRight_childLeft hs

theorem tags_leaves (σ : List Nat → Nat → List Nat) (δ : List Nat → Nat) :
    ∀ (fuel : Nat) (l : List Nat) (pos : Nat), l.length ≤ fuel →
      ∀ e ∈ buildNodes σ δ l pos, e.2 ≤ -2 ∨ 0 ≤ e.2 := by
  intro fuel
  induction fuel with
  | zero =>
    intro l pos hl e he
    match l with
    | [] => simp [buildNodes] at he
  | succ fuel ih =>
    intro l pos hl e he
    match l with
    | [] => simp [buildNodes] at he
    | [i] =>
      simp only [buildNodes, List.mem_singleton] at he
      subst he
      left
      simp only
      omega
    | a :: b :: t =>
      rw [buildNodes.eq_3] at he
      rcases List.mem_cons.mp he with rfl | hmem
      · right
        simp only
        omega
      rcases List.mem_append.mp hmem with hside | hside
      · exact ih _ (childLeft pos)
          (by rw [List.length_take, nthElement_length]
              simp only [List.length_cons] at hl ⊢; omega) e hside
      · exact ih _ (childRight pos)
          (by rw [List.length_drop, nthElement_length]
              simp only [List.length_cons] at hl ⊢; omega) e hside

theorem leafIndices_perm_leaves (σ : List Nat → Nat → List Nat) (δ : List Nat → Nat)
    (hσ : ∀ l k, (σ l k).Perm l) :
    ∀ (fuel : Nat) (l : List Nat) (pos : Nat), l.length ≤ fuel → l ≠ [] →
      (leafIndices (buildNodes σ δ l pos)).Perm l := by
  intro fuel
  induction fuel with
  | zero =>
    intro l pos hl hne
    match l with
    | [] => exact absurd rfl hne
  | succ fuel ih =>
    intro l pos hl hne
    match l with
    | [] => exact absurd rfl hne
    | [i] =>
      have h1 : (-2 - (i : Int) ≤ -2) := by omega
      have h2 : (-2 - (-2 - (i : Int))).toNat = i := by omega
      simp [buildNodes, leafIndices, h1, h2]
    | a :: b :: t =>
      rw [buildNodes.eq_3]
      have hroot : ¬ ((δ (a :: b :: t) : Int) ≤ -2) := by omega
      simp only [leafIndices, List.filterMap_cons, List.filterMap_append,
        if_neg hroot]
      have hlent : ((nthElement σ (a :: b :: t)
          ((a :: b :: t).length - (a :: b :: t).length / 2)).take
          ((a :: b :: t).length - (a :: b :: t).length / 2)).length
          = (a :: b :: t).length - (a :: b :: t).length / 2 := by
        rw [List.length_take, nthElement_length]
        simp
      have hlend : ((nthElement σ (a :: b :: t)
          ((a :: b :: t).length - (a :: b :: t).length / 2)).drop
          ((a :: b :: t).length - (a :: b :: t).length / 2)).length
          = (a :: b :: t).length / 2 := by
        rw [List.length_drop, nthElement_length]
        simp only [List.length_cons]
        omega
      have hL := ih _ (childLeft pos)
        (by rw [hlent]; simp only [List.length_cons] at hl ⊢; omega)
        (by rw [← List.length_pos, hlent]; simp only [List.length_cons]; omega)
      have hR := ih _ (childRight pos)
        (by rw [hlend]; simp only [List.length_cons] at hl ⊢; omega)
        (by rw [← List.length_pos, hlend]; simp only [List.length_cons]; omega)
      refine ((hL.append hR).trans ?_)
      rw [List.take_append_drop]
      exact nthElement_perm σ hσ _ _

end KDTreeBalancedPtInLeavesStackOpenCL

/-! ## Store lemmas for the points-in-nodes builder -/

namespace KDTreeBalancedPtInNodesStackOpenCL

theorem store_subtree_nodes (σ : List Nat → Nat → List Nat) (δ : List Nat → Nat) :
    ∀ (fuel : Nat) (l : List Nat) (pos : Nat), l.length ≤ fuel →
      ∀ e ∈ buildNodes σ δ l pos,
        ∃ k, k ≤ Nat.log 2 l.length ∧ (e.1 + 1) >>> k = pos + 1 := by
  intro fuel
  induction fuel with
  | zero =>
    intro l pos hl e he
    match l with
    | [] => simp [buildNodes] at he
  | succ fuel ih =>
    intro l pos hl e he
    match l with
    | [] => simp [buildNodes] at he
    | [i] =>
      simp only [buildNodes, List.mem_singleton] at he
      subst he
      exact ⟨0, Nat.zero_le _, by simp⟩
    | [a, b] =>
      rw [buildNodes.eq_3, if_neg (by simp)] at he
      have hlog : Nat.log 2 ([a, b] : List Nat).length = 1 := by
        simp [log_two_two]
      have hL : (childLeft pos + 1) >>> 1 = pos + 1 := by
        rw [Nat.shiftRight_succ, Nat.shiftRight_zero]
        simp only [childLeft]
        omega
      have hR : (childRight pos + 1) >>> 1 = pos + 1 := by
        rw [Nat.shiftRight_succ, Nat.shiftRight_zero]
        simp only [childRight]
        omega
      simp only [List.mem_cons, List.not_mem_nil, or_false] at he
      rcases he with rfl | rfl | rfl
      · exact ⟨0, Nat.zero_le _, by simp⟩
      · exact ⟨1, by omega, hL⟩
      · exact ⟨1, by omega, hR⟩
    | a :: b :: c :: t =>
      rw [buildNodes.eq_3, if_pos (by simp)] at he
      have hc2 : 2 ≤ (a :: b :: c :: t).length := by simp
      rcases List.mem_cons.mp he with rfl | hmem
      · exact ⟨0, Nat.zero_le _, by simp⟩
      rcases List.mem_append.mp hmem with hside | hside
      · have hlen : ((nthElement σ (a :: b :: c :: t)
            (((a :: b :: c :: t).length - 1)
              - ((a :: b :: c :: t).length - 1) / 2)).take
            (((a :: b :: c :: t).length - 1)
              - ((a :: b :: c :: t).length - 1) / 2)).length
            = (a :: b :: c :: t).length / 2 := by
          rw [List.length_take, nthElement_length]
          simp only [List.length_cons]
          omega
        obtain ⟨k, hk, hs⟩ := ih _ (childLeft pos)
          (by rw [hlen]; simp only [List.length_cons] at hl ⊢; omega) e hside
        rw [hlen] at hk
        refine ⟨k + 1, ?_, shiftRight_childLeft hs⟩
        have h1 := logN_left (a :: b :: c :: t).length
        have h2 := logN_pos hc2
        omega
      · have hlen : ((nthElement σ (a :: b :: c :: t)
            (((a :: b :: c :: t).length - 1)
              - ((a :: b :: c :: t).length - 1) / 2)).drop
            ((((a :: b :: c :: t).length - 1)
              - ((a :: b :: c :: t).length - 1) / 2) + 1)).length
            = ((a :: b :: c :: t).length - 1) / 2 := by
          rw [List.length_drop, nthElement_length]
          simp only [List.length_cons]
          omega
        obtain ⟨k, hk, hs⟩ := ih _ (childRight pos)
          (by rw [hlen]; simp only [List.length_cons] at hl ⊢; omega) e hside
        rw [hlen] at hk
        refine ⟨k + 1, ?_, shiftRight_childRight hs⟩
        have h1 := logN_right hc2
        have h2 := logN_pos hc2
        omega

theorem attains_nodes (σ : List Nat → Nat → List Nat) (δ : List Nat → Nat) :
    ∀ (fuel : Nat) (l : List Nat) (pos : Nat), l.length ≤ fuel → l ≠ [] →
      ∃ e ∈ buildNodes σ δ l pos,
        (e.1 + 1) >>> Nat.log 2 l.length = pos + 1 := by
  intro fuel
  induction fuel with
  | zero =>
    intro l pos hl hne
    match l with
    | [] => exact absurd rfl hne
  | succ fuel ih =>
    intro l pos hl hne
    match l with
    | [] => exact absurd rfl hne
    | [i] =>
      refine ⟨(pos, (-1, i)), by simp [buildNodes], ?_⟩
      simp [Nat.log_one_right]
    | [a, b] =>
      refine ⟨(childLeft pos, (-1,
        (nthElement σ [a, b] (1 - 1 / 2)).headD 0)), ?_, ?_⟩
      · rw [buildNodes.eq_3, if_neg (by simp)]
        simp
      · have hlog : Nat.log 2 ([a, b] : List Nat).length = 1 := by
          simp [log_two_two]
        rw [hlog, Nat.shiftRight_succ, Nat.shiftRight_zero]
        simp only [childLeft]
        omega
    | a :: b :: c :: t =>
      have hc2 : 2 ≤ (a :: b :: c :: t).length := by simp
      have hlen : ((nthElement σ (a :: b :: c :: t)
          (((a :: b :: c :: t).length - 1)
            - ((a :: b :: c :: t).length - 1) / 2)).take
          (((a :: b :: c :: t).length - 1)
            - ((a :: b :: c :: t).length - 1) / 2)).length
          = (a :: b :: c :: t).length / 2 := by
        rw [List.length_take, nthElement_length]
        simp only [List.length_cons]
        omega
      obtain ⟨e, hmem, hs⟩ := ih _ (childLeft pos)
        (by rw [hlen]; simp only [List.length_cons] at hl ⊢; omega)
        (by rw [← List.length_pos, hlen]; simp only [List.length_cons]; omega)
      rw [hlen] at hs
      refine ⟨e, ?_, ?_⟩
      · rw [buildNodes.eq_3, if_pos (by simp)]
        exact List.mem_cons_of_mem _ (List.mem_append_left _ hmem)
      · have h1 := logN_left (a :: b :: c :: t).length
        have h2 := logN_pos hc2
        rw [show Nat.log 2 (a :: b :: c :: t).length
          = Nat.log 2 ((a :: b :: c :: t).length / 2) + 1 from by omega]
        exact shiftRight_childLeft hs

theorem ownedIndices_perm_nodes (σ : List Nat → Nat → List Nat) (δ : List Nat → Nat)
    (hσ : ∀ l k, (σ l k).Perm l) :
    ∀ (fuel : Nat) (l : List Nat) (pos : Nat), l.length ≤ fuel → l ≠ [] →
      (ownedIndices (buildNodes σ δ l pos)).Perm l := by
  intro fuel
  induction fuel with
  | zero =>
    intro l pos hl hne
    match l with
    | [] => exact absurd rfl hne
  | succ fuel ih =>
    intro l pos hl hne
    match l with
    | [] => exact absurd rfl hne
    | [i] => simp [buildNodes, ownedIndices]
    | [a, b] =>
      have e3 := buildNodes.eq_3 σ δ pos a b ([] : List Nat)
      norm_num at e3
      have hlen2 : (nthElement σ [a, b] 1).length = 2 := by
        rw [nthElement_length]
        rfl
      obtain ⟨x, y, hxy⟩ := List.length_eq_two.mp hlen2
      have hperm : (nthElement σ [a, b] 1).Perm [a, b] :=
        nthElement_perm σ hσ _ _
      rw [hxy] at e3 hperm
      rw [e3]
      have hroot : ¬ ((δ [a, b] : Int) = -2) := by omega
      simp only [ownedIndices, List.filterMap_cons, if_neg hroot]
      norm_num
      exact (List.Perm.swap x y []).trans hperm
    | a :: b :: c :: t =>
      rw [buildNodes.eq_3, if_pos (by simp)]
      have hlenE : (nthElement σ (a :: b :: c :: t)
          (((a :: b :: c :: t).length - 1)
            - ((a :: b :: c :: t).length - 1) / 2)).length
          = (a :: b :: c :: t).length := nthElement_length σ _ _
      have hlent : ((nthElement σ (a :: b :: c :: t)
          (((a :: b :: c :: t).length - 1)
            - ((a :: b :: c :: t).length - 1) / 2)).take
          (((a :: b :: c :: t).length - 1)
            - ((a :: b :: c :: t).length - 1) / 2)).length
          = (a :: b :: c :: t).length / 2 := by
        rw [List.length_take, hlenE]
        simp only [List.length_cons]
        omega
      have hlend : ((nthElement σ (a :: b :: c :: t)
          (((a :: b :: c :: t).length - 1)
            - ((a :: b :: c :: t).length - 1) / 2)).drop
          ((((a :: b :: c :: t).length - 1)
            - ((a :: b :: c :: t).length - 1) / 2) + 1)).length
          = ((a :: b :: c :: t).length - 1) / 2 := by
        rw [List.length_drop, hlenE]
        simp only [List.length_cons]
        omega
      have hL := ih _ (childLeft pos)
        (by rw [hlent]; simp only [List.length_cons] at hl ⊢; omega)
        (by rw [← List.length_pos, hlent]; simp only [List.length_cons]; omega)
      have hR := ih _ (childRight pos)
        (by rw [hlend]; simp only [List.length_cons] at hl ⊢; omega)
        (by rw [← List.length_pos, hlend]; simp only [List.length_cons]; omega)
      have hroot : ¬ ((δ (a :: b :: c :: t) : Int) = -2) := by omega
      simp only [ownedIndices, List.filterMap_cons, List.filterMap_append,
        if_neg hroot] at hL hR ⊢
      have hlc_lt : ((a :: b :: c :: t).length - 1)
          - ((a :: b :: c :: t).length - 1) / 2
          < (nthElement σ (a :: b :: c :: t)
            (((a :: b :: c :: t).length - 1)
              - ((a :: b :: c :: t).length - 1) / 2)).length := by
        rw [hlenE]
        simp only [List.length_cons]
        omega
      have hgetD := List.getD_eq_getElem (nthElement σ (a :: b :: c :: t)
          (((a :: b :: c :: t).length - 1)
            - ((a :: b :: c :: t).length - 1) / 2)) 0 hlc_lt
      have hdrop := List.drop_eq_getElem_cons hlc_lt
      refine ((hL.append hR).cons _).trans ?_
      rw [hgetD]
      refine (List.perm_middle.symm).trans ?_
      rw [← hdrop, List.take_append_drop]
      exact nthElement_perm σ hσ _ _

end KDTreeBalancedPtInNodesStackOpenCL

namespace KDTreeBalancedPtInNodesStackOpenCL

/-- No store of the points-in-nodes builder lies strictly inside the subtree
of a position carrying the absent sentinel -2: such a position is an empty
stop marker with nothing below it. -/
theorem minus2_isolated_nodes (σ : List Nat → Nat → List Nat)
    (δ : List Nat → Nat) :
    ∀ (fuel : Nat) (l : List Nat) (pos : Nat), l.length ≤ fuel →
      ∀ e ∈ buildNodes σ δ l pos, e.2.1 = -2 →
        ∀ e2 ∈ buildNodes σ δ l pos, inSubtree e.1 e2.1 → e2.1 = e.1 := by
  intro fuel
  induction fuel with
  | zero =>
    intro l pos hl e he
    match l with
    | [] => simp [buildNodes] at he
  | succ fuel ih =>
    intro l pos hl e he htag e2 he2 hsub
    match l with
    | [] => simp [buildNodes] at he
    | [i] =>
      simp only [buildNodes, List.mem_singleton] at he
      subst he
      norm_num at htag
    | [a, b] =>
      rw [buildNodes.eq_3, if_neg (by simp)] at he he2
      simp only [List.mem_cons, List.not_mem_nil, or_false] at he he2
      rcases he with rfl | rfl | rfl
      · simp only at htag
        omega
      · norm_num at htag
      · rcases he2 with rfl | rfl | rfl
        · have := inSubtree_le hsub
          simp only [childRight] at this
          omega
        · have := inSubtree_le hsub
          simp only [childRight, childLeft] at this
          omega
        · rfl
    | a :: b :: c :: t =>
      rw [buildNodes.eq_3, if_pos (by simp)] at he he2
      have hlfuel : ((nthElement σ (a :: b :: c :: t)
          (((a :: b :: c :: t).length - 1)
            - ((a :: b :: c :: t).length - 1) / 2)).take
          (((a :: b :: c :: t).length - 1)
            - ((a :: b :: c :: t).length - 1) / 2)).length ≤ fuel := by
        rw [List.length_take, nthElement_length]
        simp only [List.length_cons] at hl ⊢
        omega
      have hrfuel : ((nthElement σ (a :: b :: c :: t)
          (((a :: b :: c :: t).length - 1)
            - ((a :: b :: c :: t).length - 1) / 2)).drop
          ((((a :: b :: c :: t).length - 1)
            - ((a :: b :: c :: t).length - 1) / 2) + 1)).length ≤ fuel := by
        rw [List.length_drop, nthElement_length]
        simp only [List.length_cons] at hl ⊢
        omega
      rcases List.mem_cons.mp he with rfl | hmem
      · simp only at htag
        omega
      rcases List.mem_append.mp hmem with hside | hside
      · have hsubL : inSubtree (childLeft pos) e.1 := by
          obtain ⟨k, _, hs⟩ :=
            store_subtree_nodes σ δ _ _ (childLeft pos) le_rfl e hside
          exact ⟨k, hs⟩
        rcases List.mem_cons.mp he2 with rfl | hmem2
        · have h1 := inSubtree_le hsub
          have h2 := inSubtree_le hsubL
          simp only [childLeft] at h2
          simp only at h1
          omega
        rcases List.mem_append.mp hmem2 with hside2 | hside2
        · exact ih _ (childLeft pos) hlfuel e hside htag e2 hside2 hsub
        · have hsubR : inSubtree (childRight pos) e2.1 := by
            obtain ⟨k, _, hs⟩ :=
              store_subtree_nodes σ δ _ _ (childRight pos) le_rfl e2 hside2
            exact ⟨k, hs⟩
          exact (siblings_disjoint (inSubtree_trans hsubL hsub) hsubR).elim
      · have hsubR : inSubtree (childRight pos) e.1 := by
          obtain ⟨k, _, hs⟩ :=
            store_subtree_nodes σ δ _ _ (childRight pos) le_rfl e hside
          exact ⟨k, hs⟩
        rcases List.mem_cons.mp he2 with rfl | hmem2
        · have h1 := inSubtree_le hsub
          have h2 := inSubtree_le hsubR
          simp only [childRight] at h2
          simp only at h1
          omega
        rcases List.mem_append.mp hmem2 with hside2 | hside2
        · have hsubL : inSubtree (childLeft pos) e2.1 := by
            obtain ⟨k, _, hs⟩ :=
              store_subtree_nodes σ δ _ _ (childLeft pos) le_rfl e2 hside2
            exact ⟨k, hs⟩
          exact (siblings_disjoint hsubL (inSubtree_trans hsubR hsub)).elim
        · exact ih _ (childRight pos) hrfuel e hside htag e2 hside2 hsub

end KDTreeBalancedPtInNodesStackOpenCL

/-! ## Exact maximum store depth of the two builders -/

theorem maxStoreDepth_leaves (σ : List Nat → Nat → List Nat)
    (δ : List Nat → Nat) (l : List Nat) (hne : l ≠ []) :
    maxStoreDepth (KDTreeBalancedPtInLeavesStackOpenCL.buildNodes σ δ l 0)
      = depthBoundL l.length := by
  apply Nat.le_antisymm
  · apply foldr_max_le
    intro x hx
    obtain ⟨e, he, rfl⟩ := List.mem_map.mp hx
    obtain ⟨k, hk, hs⟩ :=
      KDTreeBalancedPtInLeavesStackOpenCL.store_subtree_leaves σ δ
        l.length l 0 le_rfl e he
    have hd : nodeDepth e.1 = k := log_of_shiftRight_eq_one (by simpa using hs)
    omega
  · obtain ⟨e, he, hs⟩ :=
      KDTreeBalancedPtInLeavesStackOpenCL.attains_leaves σ δ
        l.length l 0 le_rfl hne
    have hd : nodeDepth e.1 = depthBoundL l.length :=
      log_of_shiftRight_eq_one (by simpa using hs)
    rw [← hd]
    exact le_foldr_max (List.mem_map_of_mem _ he)

theorem maxStoreDepth_nodes (σ : List Nat → Nat → List Nat)
    (δ : List Nat → Nat) (l : List Nat) (hne : l ≠ []) :
    maxStoreDepth (KDTreeBalancedPtInNodesStackOpenCL.buildNodes σ δ l 0)
      = Nat.log 2 l.length := by
  apply Nat.le_antisymm
  · apply foldr_max_le
    intro x hx
    obtain ⟨e, he, rfl⟩ := List.mem_map.mp hx
    obtain ⟨k, hk, hs⟩ :=
      KDTreeBalancedPtInNodesStackOpenCL.store_subtree_nodes σ δ
        l.length l 0 le_rfl e he
    have hd : nodeDepth e.1 = k := log_of_shiftRight_eq_one (by simpa using hs)
    omega
  · obtain ⟨e, he, hs⟩ :=
      KDTreeBalancedPtInNodesStackOpenCL.attains_nodes σ δ
        l.length l 0 le_rfl hne
    have hd : nodeDepth e.1 = Nat.log 2 l.length :=
      log_of_shiftRight_eq_one (by simpa using hs)
    rw [← hd]
    exact le_foldr_max (List.mem_map_of_mem _ he)

/-! ## Closed forms of the size and depth functions on the supported range -/

theorem getTreeDepth_leaves_eq {n : Nat} (h1 : 1 ≤ n) (h2 : n ≤ 2 ^ 32) :
    KDTreeBalancedPtInLeavesStackOpenCL.getTreeDepth n
      = some (depthBoundL n) := by
  rcases Nat.lt_or_ge n 2 with hn | hn
  · have : n = 1 := by omega
    subst this
    decide
  · rw [KDTreeBalancedPtInLeavesStackOpenCL.getTreeDepth,
      if_neg (by omega : ¬ n ≤ 1),
      hbScan_eq_log (by omega : 1 ≤ n - 1) (by omega : n - 1 < 2 ^ 32)]
    simp only [depthBoundL, if_neg (by omega : ¬ n ≤ 1)]

theorem getTreeSize_leaves_eq {n : Nat} (h1 : 1 ≤ n) (h2 : n ≤ 2 ^ 32) :
    KDTreeBalancedPtInLeavesStackOpenCL.getTreeSize n
      = 2 ^ (depthBoundL n + 1) - 1 := by
  rcases Nat.lt_or_ge n 2 with hn | hn
  · have : n = 1 := by omega
    subst this
    decide
  · rw [KDTreeBalancedPtInLeavesStackOpenCL.getTreeSize,
      hbScan_eq_log (by omega : 1 ≤ n - 1) (by omega : n - 1 < 2 ^ 32)]
    have hlt : Nat.log 2 (n - 1) < 32 :=
      Nat.log_lt_of_lt_pow (by omega) (by omega)
    have hmask := lowMask_shift_or _ hlt
    simp only [depthBoundL, if_neg (by omega : ¬ n ≤ 1)]
    rw [hmask]

theorem getTreeDepth_nodes_eq {n : Nat} (h1 : 1 ≤ n) (h2 : n < 2 ^ 32) :
    KDTreeBalancedPtInNodesStackOpenCL.getTreeDepth n = Nat.log 2 n + 1 := by
  unfold KDTreeBalancedPtInNodesStackOpenCL.getTreeDepth
  rw [hbScan_eq_log h1 h2]

theorem getTreeSize_nodes_eq {n : Nat} (h1 : 1 ≤ n) (h2 : n < 2 ^ 32) :
    KDTreeBalancedPtInNodesStackOpenCL.getTreeSize n
      = 2 ^ (Nat.log 2 n + 1) - 1 := by
  unfold KDTreeBalancedPtInNodesStackOpenCL.getTreeSize
  rw [hbScan_eq_log h1 h2]
  have hlt : Nat.log 2 n < 32 := Nat.log_lt_of_lt_pow (by omega) h2
  exact lowMask_eq _ hlt

/-! ## Behaviour of the argMax loop -/

theorem argMaxGo_spec {T : Type} [LinearOrder T] :
    ∀ (v : List T) (i : Nat) (m : T) (mi : Nat),
      (∀ x ∈ v, x ≤ (argMaxGo v i m mi).1)
      ∧ m ≤ (argMaxGo v i m mi).1
      ∧ (((argMaxGo v i m mi).2 = mi ∧ (argMaxGo v i m mi).1 = m)
        ∨ (∃ j, (argMaxGo v i m mi).2 = i + j
            ∧ v[j]? = some (argMaxGo v i m mi).1
            ∧ m < (argMaxGo v i m mi).1
            ∧ ∀ j2 < j, ∀ y, v[j2]? = some y → y < (argMaxGo v i m mi).1)) := by
  intro v
  induction v with
  | nil => intro i m mi; simp [argMaxGo]
  | cons x xs ih =>
    intro i m mi
    by_cases hx : m < x
    · rw [show argMaxGo (x :: xs) i m mi = argMaxGo xs (i + 1) x i from by
        rw [argMaxGo, if_pos hx]]
      obtain ⟨h1, h2, h3⟩ := ih (i + 1) x i
      refine ⟨?_, le_of_lt (lt_of_lt_of_le hx h2), ?_⟩
      · intro y hy
        rcases List.mem_cons.mp hy with rfl | hy2
        · exact h2
        · exact h1 y hy2
      rcases h3 with ⟨ha, hb⟩ | ⟨j, ha, hb, hc, hd⟩
      · right
        exact ⟨0, by omega, by simp [hb], by rw [hb]; exact hx,
          by intro j2 hj2 y hy; omega⟩
      · right
        refine ⟨j + 1, by omega, by simpa using hb, lt_trans hx hc, ?_⟩
        intro j2 hj2 y hy
        match j2, hy with
        | 0, hy =>
          simp only [List.getElem?_cons_zero, Option.some.injEq] at hy
          subst hy
          exact hc
        | j2 + 1, hy =>
          simp only [List.getElem?_cons_succ] at hy
          exact hd j2 (by omega) y hy
    · rw [show argMaxGo (x :: xs) i m mi = argMaxGo xs (i + 1) m mi from by
        rw [argMaxGo, if_neg hx]]
      obtain ⟨h1, h2, h3⟩ := ih (i + 1) m mi
      push_neg at hx
      refine ⟨?_, h2, ?_⟩
      · intro y hy
        rcases List.mem_cons.mp hy with rfl | hy2
        · exact le_trans hx h2
        · exact h1 y hy2
      rcases h3 with ⟨ha, hb⟩ | ⟨j, ha, hb, hc, hd⟩
      · left
        exact ⟨ha, hb⟩
      · right
        refine ⟨j + 1, by omega, by simpa using hb, hc, ?_⟩
        intro j2 hj2 y hy
        match j2, hy with
        | 0, hy =>
          simp only [List.getElem?_cons_zero, Option.some.injEq] at hy
          subst hy
          exact lt_of_le_of_lt hx hc
        | j2 + 1, hy =>
          simp only [List.getElem?_cons_succ] at hy
          exact hd j2 (by omega) y hy

/-! ## Claims -/

/-- C1 (counterexample). The claim says a failed build is never stored in the
program cache and that a byte-identical retry recompiles; in the source the
program is stored into cachedPrograms before building, so after a failed
compile of a fresh source the entry is cached and the retry hits the cache
without recompiling. -/
theorem C1_cache_counterexample :
    (initOpenCL (fun _ => false) ⟨[]⟩ "s").2 = false
    ∧ "s" ∈ (initOpenCL (fun _ => false) ⟨[]⟩ "s").1.cachedPrograms
    ∧ initOpenCL (fun _ => false) (initOpenCL (fun _ => false) ⟨[]⟩ "s").1 "s"
      = ((initOpenCL (fun _ => false) ⟨[]⟩ "s").1, true) := by
  decide

/-- C1 (amended). If kernel compilation fails in initOpenCL on a source text
not yet cached, the build aborts with an error, but the failed program stays
stored in the program cache, and a subsequent request with byte-identical
source hits the cache and does not recompile. -/
theorem C1_cache_amended (compileOk : String → Bool) (st : SourceCacherState)
    (source : String) (hfail : compileOk source = false)
    (hmiss : source ∉ st.cachedPrograms) :
    (initOpenCL compileOk st source).2 = false
    ∧ source ∈ (initOpenCL compileOk st source).1.cachedPrograms
    ∧ initOpenCL compileOk (initOpenCL compileOk st source).1 source
      = ((initOpenCL compileOk st source).1, true) := by
  have h1 : initOpenCL compileOk st source
      = (⟨source :: st.cachedPrograms⟩, false) := by
    simp [initOpenCL, hmiss, hfail]
  rw [h1]
  refine ⟨rfl, by simp, ?_⟩
  rw [initOpenCL, if_pos (by simp)]

/-- C1 (witness). Concrete instance of the amended claim. -/
theorem C1_cache_witness :
    (fun _ : String => false) "s2" = false
    ∧ "s2" ∉ (SourceCacherState.mk ["other"]).cachedPrograms
    ∧ ((initOpenCL (fun _ => false) ⟨["other"]⟩ "s2").2 = false
      ∧ "s2" ∈ (initOpenCL (fun _ => false) ⟨["other"]⟩ "s2").1.cachedPrograms
      ∧ initOpenCL (fun _ => false)
          (initOpenCL (fun _ => false) ⟨["other"]⟩ "s2").1 "s2"
        = ((initOpenCL (fun _ => false) ⟨["other"]⟩ "s2").1, true)) :=
  ⟨rfl, by decide, C1_cache_amended (fun _ => false) ⟨["other"]⟩ "s2" rfl (by decide)⟩

/-- C2 (code bug). The claim says every variant binds the tree buffer at
slot 11 when statistics are enabled; the points-in-nodes constructor does,
but the points-in-leaves constructor binds it at slot 10 unconditionally,
which collides with the visit-count buffer that knn binds at slot 10 when
statistics are enabled. -/
theorem C2_tree_arg_slots :
    ptInLeavesTreeArgSlot true = 10
    ∧ ptInLeavesTreeArgSlot false = 10
    ∧ ptInNodesTreeArgSlot true = 11
    ∧ ptInNodesTreeArgSlot false = 10
    ∧ visitCountArgSlot = 10
    ∧ ptInLeavesTreeArgSlot true = visitCountArgSlot :=
  ⟨rfl, rfl, rfl, rfl, rfl, rfl⟩

/-- C3 (counterexample). For the points-in-nodes variant at n = 1 the
value getTreeDepth 1 = 1 does not equal the true maximum root-to-leaf
depth of the built tree, which is 0 (the root is the only node). -/
theorem C3_depth_counterexample :
    KDTreeBalancedPtInNodesStackOpenCL.getTreeDepth 1 = 1
    ∧ maxStoreDepth (KDTreeBalancedPtInNodesStackOpenCL.buildNodes
        idSel zeroCut (List.range 1) 0) = 0 := by
  constructor
  · decide
  · have h0 : List.range 1 = [0] := rfl
    rw [h0]
    have hb : KDTreeBalancedPtInNodesStackOpenCL.buildNodes idSel zeroCut [0] 0
        = [(0, (-1, 0))] := by
      simp [KDTreeBalancedPtInNodesStackOpenCL.buildNodes]
    rw [hb]
    simp [maxStoreDepth, nodeDepth, Nat.log_one_right]

/-- C3 (amended). For every point count n with 1 <= n <= 2^32 and every
point configuration (every rearrangement oracle and cut-dimension oracle):
the points-in-leaves getTreeDepth n equals the maximum root-to-leaf depth
of the stores of its buildNodes; the points-in-nodes getTreeDepth n (for
n < 2^32, the documented input ceiling) equals that maximum depth plus one,
counting nodes rather than edges; and in both variants every stored node
position is strictly below the corresponding getTreeSize n. -/
theorem C3_depth_size_amended (σ : List Nat → Nat → List Nat)
    (δ : List Nat → Nat) (n : Nat) (h1 : 1 ≤ n) (h2 : n ≤ 2 ^ 32) :
    (KDTreeBalancedPtInLeavesStackOpenCL.getTreeDepth n
        = some (maxStoreDepth (KDTreeBalancedPtInLeavesStackOpenCL.buildNodes
            σ δ (List.range n) 0))
      ∧ ∀ q ∈ storePositions (KDTreeBalancedPtInLeavesStackOpenCL.buildNodes
            σ δ (List.range n) 0),
          q < KDTreeBalancedPtInLeavesStackOpenCL.getTreeSize n)
    ∧ (n < 2 ^ 32 →
        KDTreeBalancedPtInNodesStackOpenCL.getTreeDepth n
          = maxStoreDepth (KDTreeBalancedPtInNodesStackOpenCL.buildNodes
              σ δ (List.range n) 0) + 1
        ∧ ∀ q ∈ storePositions (KDTreeBalancedPtInNodesStackOpenCL.buildNodes
              σ δ (List.range n) 0),
            q < KDTreeBalancedPtInNodesStackOpenCL.getTreeSize n) := by
  have hlen : (List.range n).length = n := List.length_range n
  have hne : (List.range n) ≠ [] := by
    rw [← List.length_pos, hlen]
    omega
  constructor
  · constructor
    · rw [maxStoreDepth_leaves σ δ _ hne, hlen, getTreeDepth_leaves_eq h1 h2]
    · intro q hq
      obtain ⟨e, he, rfl⟩ := List.mem_map.mp hq
      obtain ⟨k, hk, hs⟩ :=
        KDTreeBalancedPtInLeavesStackOpenCL.store_subtree_leaves σ δ
          (List.range n).length _ 0 le_rfl e he
      rw [hlen] at hk
      have hs1 : (e.1 + 1) >>> k = 1 := by simpa using hs
      have hlt := shiftRight_eq_one_lt hs1
      have hmono : (2 : Nat) ^ (k + 1) ≤ 2 ^ (depthBoundL n + 1) :=
        Nat.pow_le_pow_right (by norm_num) (by omega)
      have hp : (2 : Nat) ≤ 2 ^ (depthBoundL n + 1) := by
        calc (2 : Nat) = 2 ^ 1 := by norm_num
        _ ≤ 2 ^ (depthBoundL n + 1) :=
          Nat.pow_le_pow_right (by norm_num) (by omega)
      rw [getTreeSize_leaves_eq h1 h2]
      omega
  · intro h3
    constructor
    · rw [maxStoreDepth_nodes σ δ _ hne, hlen, getTreeDepth_nodes_eq h1 h3]
    · intro q hq
      obtain ⟨e, he, rfl⟩ := List.mem_map.mp hq
      obtain ⟨k, hk, hs⟩ :=
        KDTreeBalancedPtInNodesStackOpenCL.store_subtree_nodes σ δ
          (List.range n).length _ 0 le_rfl e he
      rw [hlen] at hk
      have hs1 : (e.1 + 1) >>> k = 1 := by simpa using hs
      have hlt := shiftRight_eq_one_lt hs1
      have hmono : (2 : Nat) ^ (k + 1) ≤ 2 ^ (Nat.log 2 n + 1) :=
        Nat.pow_le_pow_right (by norm_num) (by omega)
      have hp : (2 : Nat) ≤ 2 ^ (Nat.log 2 n + 1) := by
        calc (2 : Nat) = 2 ^ 1 := by norm_num
        _ ≤ 2 ^ (Nat.log 2 n + 1) :=
          Nat.pow_le_pow_right (by norm_num) (by omega)
      rw [getTreeSize_nodes_eq h1 h3]
      omega

/-- C3 (witness). The amended claim at n = 3 with the identity rearrangement
oracle and the axis-0 cut oracle. -/
theorem C3_depth_size_witness :
    1 ≤ 3 ∧ 3 ≤ 2 ^ 32
    ∧ ((KDTreeBalancedPtInLeavesStackOpenCL.getTreeDepth 3
        = some (maxStoreDepth (KDTreeBalancedPtInLeavesStackOpenCL.buildNodes
            idSel zeroCut (List.range 3) 0))
      ∧ ∀ q ∈ storePositions (KDTreeBalancedPtInLeavesStackOpenCL.buildNodes
            idSel zeroCut (List.range 3) 0),
          q < KDTreeBalancedPtInLeavesStackOpenCL.getTreeSize 3)
    ∧ (3 < 2 ^ 32 →
        KDTreeBalancedPtInNodesStackOpenCL.getTreeDepth 3
          = maxStoreDepth (KDTreeBalancedPtInNodesStackOpenCL.buildNodes
              idSel zeroCut (List.range 3) 0) + 1
        ∧ ∀ q ∈ storePositions (KDTreeBalancedPtInNodesStackOpenCL.buildNodes
              idSel zeroCut (List.range 3) 0),
            q < KDTreeBalancedPtInNodesStackOpenCL.getTreeSize 3)) :=
  ⟨by decide, by decide,
    C3_depth_size_amended idSel zeroCut 3 (by decide) (by decide)⟩

/-- C4 (counterexample). At n = 2^32 + 1 the position of the highest set
bit of n - 1 is 32, but the 32-bit scan of the points-in-leaves getTreeSize
finds no bit and returns 1, which differs from the claimed formula. -/
theorem C4_tree_size_counterexample :
    Nat.log 2 (2 ^ 32 + 1 - 1) = 32
    ∧ KDTreeBalancedPtInLeavesStackOpenCL.getTreeSize (2 ^ 32 + 1) = 1
    ∧ (((1 <<< (32 + 1)) - 1) <<< 1) ||| 1 ≠ 1 := by
  refine ⟨?_, by decide, by decide⟩
  have h32 : (2 : Nat) ^ 32 + 1 - 1 = 2 ^ 32 := by norm_num
  rw [h32]
  exact Nat.log_pow (by norm_num) 32

/-- C4 (amended). On the documented input range, the two getTreeSize
functions compute the claimed closed forms, with h the position of the
highest set bit (characterised through testBit): for the points-in-leaves
variant and 2 <= n <= 2^32, getTreeSize n = (((1 << (h+1)) - 1) << 1) | 1
with h the highest set bit of n - 1, and getTreeSize 1 = 1; for the
points-in-nodes variant and 1 <= n < 2^32, getTreeSize n = (1 << (h+1)) - 1
with h the highest set bit of n itself. -/
theorem C4_tree_size_amended (n : Nat) :
    KDTreeBalancedPtInLeavesStackOpenCL.getTreeSize 1 = 1
    ∧ (2 ≤ n → n ≤ 2 ^ 32 →
        KDTreeBalancedPtInLeavesStackOpenCL.getTreeSize n
          = (((1 <<< (Nat.log 2 (n - 1) + 1)) - 1) <<< 1) ||| 1
        ∧ (n - 1).testBit (Nat.log 2 (n - 1)) = true
        ∧ (∀ i, Nat.log 2 (n - 1) < i → (n - 1).testBit i = false))
    ∧ (1 ≤ n → n < 2 ^ 32 →
        KDTreeBalancedPtInNodesStackOpenCL.getTreeSize n
          = (1 <<< (Nat.log 2 n + 1)) - 1
        ∧ n.testBit (Nat.log 2 n) = true
        ∧ (∀ i, Nat.log 2 n < i → n.testBit i = false)) := by
  refine ⟨by decide, ?_, ?_⟩
  · intro hn h2
    have hlt : Nat.log 2 (n - 1) < 32 :=
      Nat.log_lt_of_lt_pow (by omega) (by omega)
    refine ⟨?_, testBit_log_self (by omega),
      fun i hi => testBit_false_of_log_lt hi⟩
    rw [getTreeSize_leaves_eq (by omega) h2]
    simp only [depthBoundL, if_neg (by omega : ¬ n ≤ 1)]
    rw [spec_formula_leaves _ hlt, show Nat.log 2 (n - 1) + 1 + 1
      = Nat.log 2 (n - 1) + 2 from by omega]
  · intro hn h2
    have hlt : Nat.log 2 n < 32 := Nat.log_lt_of_lt_pow (by omega) h2
    refine ⟨?_, testBit_log_self (by omega),
      fun i hi => testBit_false_of_log_lt hi⟩
    rw [getTreeSize_nodes_eq hn h2, Nat.shiftLeft_eq, one_mul]

/-- C4 (witness). The amended claim at n = 5. -/
theorem C4_tree_size_witness :
    2 ≤ 5 ∧ 5 ≤ 2 ^ 32 ∧ 1 ≤ 5 ∧ 5 < 2 ^ 32
    ∧ KDTreeBalancedPtInLeavesStackOpenCL.getTreeSize 5
      = (((1 <<< (Nat.log 2 (5 - 1) + 1)) - 1) <<< 1) ||| 1
    ∧ KDTreeBalancedPtInNodesStackOpenCL.getTreeSize 5
      = (1 <<< (Nat.log 2 5 + 1)) - 1 :=
  ⟨by decide, by decide, by decide, by decide,
    ((C4_tree_size_amended 5).2.1 (by decide) (by decide)).1,
    ((C4_tree_size_amended 5).2.2 (by decide) (by decide)).1⟩

/-- C5. In the points-in-leaves variant, a one-point range with original
index i is stored as the sentinel tag -2 - i; every stored tag is either a
leaf sentinel at most -2 or a non-negative split dimension, so the two
never collide; and over any n >= 1 points and any point configuration the
indices decoded from the leaf sentinels are a permutation of 0..n-1. -/
theorem C5_pt_in_leaves_sentinels (σ : List Nat → Nat → List Nat)
    (δ : List Nat → Nat) (hσ : ∀ l k, (σ l k).Perm l) (i pos n : Nat)
    (h1 : 1 ≤ n) :
    KDTreeBalancedPtInLeavesStackOpenCL.buildNodes σ δ [i] pos
      = [(pos, -2 - (i : Int))]
    ∧ (∀ e ∈ KDTreeBalancedPtInLeavesStackOpenCL.buildNodes
          σ δ (List.range n) 0, e.2 ≤ -2 ∨ 0 ≤ e.2)
    ∧ (leafIndices (KDTreeBalancedPtInLeavesStackOpenCL.buildNodes
          σ δ (List.range n) 0)).Perm (List.range n) := by
  refine ⟨by simp [KDTreeBalancedPtInLeavesStackOpenCL.buildNodes], ?_, ?_⟩
  · exact fun e he =>
      KDTreeBalancedPtInLeavesStackOpenCL.tags_leaves σ δ _ _ 0 le_rfl e he
  · exact KDTreeBalancedPtInLeavesStackOpenCL.leafIndices_perm_leaves σ δ hσ
      _ _ 0 le_rfl
      (by rw [← List.length_pos, List.length_range]; omega)

/-- C5 (witness). Concrete instance at n = 3, i = 7, pos = 2 with the
identity rearrangement oracle. -/
theorem C5_pt_in_leaves_witness :
    1 ≤ 3
    ∧ (KDTreeBalancedPtInLeavesStackOpenCL.buildNodes idSel zeroCut [7] 2
        = [(2, -2 - (7 : Int))]
      ∧ (∀ e ∈ KDTreeBalancedPtInLeavesStackOpenCL.buildNodes
            idSel zeroCut (List.range 3) 0, e.2 ≤ -2 ∨ 0 ≤ e.2)
      ∧ (leafIndices (KDTreeBalancedPtInLeavesStackOpenCL.buildNodes
            idSel zeroCut (List.range 3) 0)).Perm (List.range 3)) :=
  ⟨by decide, C5_pt_in_leaves_sentinels idSel zeroCut
    (fun l _ => List.Perm.refl l) 7 2 3 (by decide)⟩

/-- C6. In the points-in-nodes variant: a one-point range is stored as a
(-1, index) leaf; a two-point range stores the selected point in the split
node at the current position and writes its two children directly as
(-1, first index) and (-2, 0) with no recursion; over any n >= 1 points the
indices owned by split nodes and (-1, idx) leaves are a permutation of
0..n-1; and no store lies strictly inside the subtree of a (-2, *)
sentinel, which is therefore never reachable as a real node. -/
theorem C6_pt_in_nodes_sentinels (σ : List Nat → Nat → List Nat)
    (δ : List Nat → Nat) (hσ : ∀ l k, (σ l k).Perm l) (i a b pos n : Nat)
    (h1 : 1 ≤ n) :
    KDTreeBalancedPtInNodesStackOpenCL.buildNodes σ δ [i] pos
      = [(pos, (-1, i))]
    ∧ KDTreeBalancedPtInNodesStackOpenCL.buildNodes σ δ [a, b] pos
      = [(pos, ((δ [a, b] : Int), (nthElement σ [a, b] 1).getD 1 0)),
         (childLeft pos, (-1, (nthElement σ [a, b] 1).headD 0)),
         (childRight pos, (-2, 0))]
    ∧ (ownedIndices (KDTreeBalancedPtInNodesStackOpenCL.buildNodes
          σ δ (List.range n) 0)).Perm (List.range n)
    ∧ (∀ e ∈ KDTreeBalancedPtInNodesStackOpenCL.buildNodes
          σ δ (List.range n) 0, e.2.1 = -2 →
        ∀ e2 ∈ KDTreeBalancedPtInNodesStackOpenCL.buildNodes
            σ δ (List.range n) 0, inSubtree e.1 e2.1 → e2.1 = e.1) := by
  refine ⟨by simp [KDTreeBalancedPtInNodesStackOpenCL.buildNodes],
    by simp [KDTreeBalancedPtInNodesStackOpenCL.buildNodes.eq_3], ?_, ?_⟩
  · exact KDTreeBalancedPtInNodesStackOpenCL.ownedIndices_perm_nodes σ δ hσ
      _ _ 0 le_rfl
      (by rw [← List.length_pos, List.length_range]; omega)
  · exact fun e he htag e2 he2 hsub =>
      KDTreeBalancedPtInNodesStackOpenCL.minus2_isolated_nodes σ δ
        _ _ 0 le_rfl e he htag e2 he2 hsub

/-- C6 (witness). Concrete instance at n = 3, i = 7, a = 4, b = 9, pos = 2
with the identity rearrangement oracle. -/
theorem C6_pt_in_nodes_witness :
    1 ≤ 3
    ∧ (KDTreeBalancedPtInNodesStackOpenCL.buildNodes idSel zeroCut [7] 2
        = [(2, (-1, 7))]
      ∧ KDTreeBalancedPtInNodesStackOpenCL.buildNodes idSel zeroCut [4, 9] 2
        = [(2, ((zeroCut [4, 9] : Int), (nthElement idSel [4, 9] 1).getD 1 0)),
           (childLeft 2, (-1, (nthElement idSel [4, 9] 1).headD 0)),
           (childRight 2, (-2, 0))]
      ∧ (ownedIndices (KDTreeBalancedPtInNodesStackOpenCL.buildNodes
            idSel zeroCut (List.range 3) 0)).Perm (List.range 3)
      ∧ (∀ e ∈ KDTreeBalancedPtInNodesStackOpenCL.buildNodes
            idSel zeroCut (List.range 3) 0, e.2.1 = -2 →
          ∀ e2 ∈ KDTreeBalancedPtInNodesStackOpenCL.buildNodes
              idSel zeroCut (List.range 3) 0,
            inSubtree e.1 e2.1 → e2.1 = e.1)) :=
  ⟨by decide, C6_pt_in_nodes_sentinels idSel zeroCut
    (fun l _ => List.Perm.refl l) 7 4 9 2 3 (by decide)⟩

/-- C7. If the requested neighbour count k exceeds MAX_K then knn fails
with an error (the capacity error when the shape validation passed), and
at the moment of failure its effect trace is empty: no buffer has been
bound and no kernel has been dispatched, so no output element has been
written. -/
theorem C7_capacity_error (a : KnnIn) (h : MAX_K < a.k) :
    (∃ e, (knn a).2 = some e) ∧ (knn a).1 = []
    ∧ (checkSizesKnn a = true → (knn a).2 = some KnnErr.capacityErr) := by
  by_cases hc : checkSizesKnn a = true
  · have hout : knn a = ([], some KnnErr.capacityErr) := by
      simp [knn, hc, h]
    rw [hout]
    exact ⟨⟨_, rfl⟩, rfl, fun _ => rfl⟩
  · have hout : knn a = ([], some KnnErr.sizeErr) := by
      simp [knn, hc]
    rw [hout]
    exact ⟨⟨_, rfl⟩, rfl, fun hcc => absurd hcc hc⟩

/-- C7 (witness). A well-shaped call with k = 33 > 32. -/
theorem C7_capacity_error_witness :
    MAX_K < (33 : Nat)
    ∧ ((∃ e, (knn (KnnIn.mk 33 1 3 4 3 4 33 1 33 1 true false false)).2
          = some e)
      ∧ (knn (KnnIn.mk 33 1 3 4 3 4 33 1 33 1 true false false)).1 = []
      ∧ (checkSizesKnn (KnnIn.mk 33 1 3 4 3 4 33 1 33 1 true false false)
          = true →
        (knn (KnnIn.mk 33 1 3 4 3 4 33 1 33 1 true false false)).2
          = some KnnErr.capacityErr)) :=
  ⟨by decide, C7_capacity_error (KnnIn.mk 33 1 3 4 3 4 33 1 33 1 true false false)
    (by decide)⟩

/-- C8. On any non-empty extent vector (extents are non-negative since they
are differences of enclosing bounds), argMax returns a valid index whose
component is maximal, and every component at a smaller index is strictly
below it, so among tied maxima the lowest index wins. -/
theorem C8_argmax_lowest_tie {T : Type} [LinearOrder T] [Zero T]
    (v : List T) (hne : v ≠ []) (hnn : ∀ x ∈ v, 0 ≤ x) :
    argMax v < v.length
    ∧ (∀ x ∈ v, x ≤ v.getD (argMax v) 0)
    ∧ (∀ j, j < argMax v → v.getD j 0 < v.getD (argMax v) 0) := by
  obtain ⟨h1, h2, h3⟩ := argMaxGo_spec v 0 (0 : T) 0
  rcases h3 with ⟨ha, hb⟩ | ⟨j, ha, hb, hc, hd⟩
  · match v, hne with
    | x :: xs, _ =>
      have hx0 : (0 : T) ≤ x := hnn x (by simp)
      have hargmax : argMax (x :: xs) = 0 := ha
      rw [hargmax]
      refine ⟨by simp, ?_, by omega⟩
      intro y hy
      have hy1 : y ≤ (argMaxGo (x :: xs) 0 (0 : T) 0).1 := h1 y hy
      rw [hb] at hy1
      simpa using le_trans hy1 hx0
  · have hargmax : argMax v = j := by
      rw [argMax, ha]
      omega
    have hjlt : j < v.length := by
      have hsome := hb
      rw [List.getElem?_eq_some] at hsome
      exact hsome.1
    have hgetD : v.getD j 0 = (argMaxGo v 0 (0 : T) 0).1 := by
      rw [List.getD_eq_getElem?_getD, hb]
      rfl
    rw [hargmax]
    refine ⟨hjlt, ?_, ?_⟩
    · intro y hy
      rw [hgetD]
      exact h1 y hy
    · intro j2 hj2
      rw [hgetD]
      have hj2lt : j2 < v.length := by omega
      have hv : v[j2]? = some (v.getD j2 0) := by
        rw [List.getD_eq_getElem?_getD, List.getElem?_eq_getElem hj2lt]
        rfl
      exact hd j2 hj2 _ hv

/-- C8 (witness). The vector (1, 3, 3, 2) has its maximum first attained at
index 1. -/
theorem C8_argmax_witness :
    ([1, 3, 3, 2] : List Int) ≠ []
    ∧ (∀ x ∈ ([1, 3, 3, 2] : List Int), 0 ≤ x)
    ∧ (argMax ([1, 3, 3, 2] : List Int) < ([1, 3, 3, 2] : List Int).length
      ∧ (∀ x ∈ ([1, 3, 3, 2] : List Int),
          x ≤ ([1, 3, 3, 2] : List Int).getD (argMax ([1, 3, 3, 2] : List Int)) 0)
      ∧ (∀ j, j < argMax ([1, 3, 3, 2] : List Int) →
          ([1, 3, 3, 2] : List Int).getD j 0
            < ([1, 3, 3, 2] : List Int).getD (argMax ([1, 3, 3, 2] : List Int)) 0)) :=
  ⟨by decide, by decide,
    C8_argmax_lowest_tie [1, 3, 3, 2] (by decide) (by decide)⟩

/-- C9. The compile-time neighbour capacity MAX_K is 32, shared by every
variant and scalar instantiation: the capacity check of knn raises the
capacity error precisely when k > 32, and every generated macro header
embeds the line "#define MAX_K 32". -/
theorem C9_max_k_constant :
    MAX_K = 32
    ∧ (∀ a : KnnIn, checkSizesKnn a = true →
        ((knn a).2 ≠ some KnnErr.capacityErr ↔ a.k ≤ 32))
    ∧ (∀ typeCode epsStr dim stride collectStatistics additionalDefines,
        ∃ s1 s2,
          buildDefines typeCode epsStr dim stride collectStatistics
            additionalDefines
          = s1 ++ ("#define MAX_K 32\n" ++ s2)) := by
  refine ⟨rfl, ?_, ?_⟩
  · intro a hc
    have key : (knn a).2 = some KnnErr.capacityErr ↔ 32 < a.k := by
      unfold knn
      by_cases hk : 32 < a.k
      · simp [hc, MAX_K, hk]
      · simp only [hc, MAX_K, Bool.not_eq_true, Bool.true_eq_false,
          if_false, gt_iff_lt, if_neg hk]
        split_ifs <;> simp_all
    constructor
    · intro hne
      by_contra hk2
      exact hne (key.mpr (by omega))
    · intro hk2 heq
      have := key.mp heq
      omega
  · intro typeCode epsStr dim stride collectStatistics additionalDefines
    refine ⟨typeCode ++ "#define EPSILON " ++ epsStr ++ "\n"
      ++ "#define DIM_COUNT " ++ toString dim ++ "\n"
      ++ "#define POINT_STRIDE " ++ toString stride ++ "\n",
      (if collectStatistics then "#define TOUCH_STATISTICS\n" else "")
        ++ additionalDefines, ?_⟩
    simp only [buildDefines, String.append_assoc]
    rfl

/-- C9 (witness). The capacity equivalence on a well-shaped call with
k = 32, and the MAX_K line inside a concrete float header. -/
theorem C9_max_k_witness :
    checkSizesKnn (KnnIn.mk 32 1 3 4 3 4 32 1 32 1 true false false) = true
    ∧ ((knn (KnnIn.mk 32 1 3 4 3 4 32 1 32 1 true false false)).2
        ≠ some KnnErr.capacityErr
      ↔ (KnnIn.mk 32 1 3 4 3 4 32 1 32 1 true false false).k ≤ 32)
    ∧ (∃ s1 s2, buildDefines enableCLTypeSupportFloat "1e-07" 3 4 false ""
        = s1 ++ ("#define MAX_K 32\n" ++ s2)) :=
  ⟨by decide,
    C9_max_k_constant.2.1 (KnnIn.mk 32 1 3 4 3 4 32 1 32 1 true false false)
      (by decide),
    C9_max_k_constant.2.2 enableCLTypeSupportFloat "1e-07" 3 4 false ""⟩

set_option maxRecDepth 4000 in
/-- C10 (counterexample). At elCount = 2^32 + 1 the decremented value 2^32
has no set bit among positions 0..31, so the unsigned scan of the
points-in-leaves getTreeDepth never produces a result, refuting termination
for every input count. -/
theorem C10_depth_termination_counterexample :
    2 ≤ 2 ^ 32 + 1
    ∧ (∀ i, i ≤ 31 → (2 ^ 32 + 1 - 1).testBit i = false)
    ∧ KDTreeBalancedPtInLeavesStackOpenCL.getTreeDepth (2 ^ 32 + 1) = none := by
  refine ⟨by decide, by decide, by decide⟩

/-- C10 (amended). The points-in-leaves getTreeDepth returns 0 immediately
for elCount <= 1, and for 2 <= elCount <= 2^32 (the documented input
ceiling) elCount - 1 has its highest set bit at position
log2 (elCount - 1) <= 31, the scan exits there, and the function returns
that position plus one. -/
theorem C10_depth_termination_amended (n : Nat) :
    (n ≤ 1 → KDTreeBalancedPtInLeavesStackOpenCL.getTreeDepth n = some 0)
    ∧ (2 ≤ n → n ≤ 2 ^ 32 →
        KDTreeBalancedPtInLeavesStackOpenCL.getTreeDepth n
          = some (Nat.log 2 (n - 1) + 1)
        ∧ (n - 1).testBit (Nat.log 2 (n - 1)) = true
        ∧ Nat.log 2 (n - 1) ≤ 31) := by
  constructor
  · intro hn
    rw [KDTreeBalancedPtInLeavesStackOpenCL.getTreeDepth, if_pos hn]
  · intro hn h2
    refine ⟨?_, testBit_log_self (by omega), ?_⟩
    · rw [KDTreeBalancedPtInLeavesStackOpenCL.getTreeDepth,
        if_neg (by omega), hbScan_eq_log (by omega) (by omega)]
    · have := Nat.log_lt_of_lt_pow (b := 2) (x := 32)
        (by omega : n - 1 ≠ 0) (by omega : n - 1 < 2 ^ 32)
      omega

/-- C10 (witness). The amended claim at elCount = 6. -/
theorem C10_depth_termination_witness :
    2 ≤ 6 ∧ 6 ≤ 2 ^ 32
    ∧ (KDTreeBalancedPtInLeavesStackOpenCL.getTreeDepth 6
        = some (Nat.log 2 (6 - 1) + 1)
      ∧ (6 - 1 : Nat).testBit (Nat.log 2 (6 - 1)) = true
      ∧ Nat.log 2 (6 - 1) ≤ 31) :=
  ⟨by decide, by decide,
    (C10_depth_termination_amended 6).2 (by decide) (by decide)⟩

end KdTreeOpenCL
